import Mathlib

/-!
Formal model of the transactional chain-state engine in
`chain/src/txhashset/txhashset.rs` (the Gotts txhashset coordinator).

The MMR backend primitives (`get_hash`, `get_data`, `prune`, `sync`, …) and
the K/V store are external collaborators of that file; they are modelled here
as explicit function parameters / abstract outcomes, while every operation of
the coordinator itself is translated from the source.  Hashes, commitments and
excess values are modelled as `Nat`; MMR positions are 1-based `Nat` (the
source uses `u64`; none of the modelled code paths exercises wrap-around).
-/

namespace GottsTxhashset

/-- Output features, `OutputFeatures` in the source.  Plain and Coinbase
outputs live in the OutputI MMR, SigLocked outputs in the OutputII MMR. -/
inductive OutputFeatures where
  | plain
  | coinbase
  | sigLocked
deriving DecidableEq, Repr

/-- The commitment → position index record `OutputFeaturePosHeight`. -/
structure OutputFeaturePosHeight where
  features : OutputFeatures
  position : Nat
  height : Nat
deriving DecidableEq, Repr

/-- Abstraction of an output MMR leaf (`OutputI` / `OutputII` data): the
fields the coordinator reads after `into_output()`. -/
structure OutLeaf where
  commit : Nat
  features : OutputFeatures
deriving DecidableEq, Repr

/-- Result record of `is_unspent`, `OutputMMRPosition` in the source. -/
structure OutputMMRPosition where
  output_mmr_hash : Nat
  position : Nat
  height : Nat
  features : OutputFeatures
deriving DecidableEq, Repr

/-- The error kinds of `ErrorKind` that the modelled operations surface. -/
inductive TxErr where
  | outputNotFound
  | alreadySpent (commit : Nat)
  | txHashSetErr (msg : String)
  | txKernelNotFound
  | sigVerify
deriving DecidableEq, Repr

/-- Read-only view over one output MMR backend: `get_hash`, `get_data` and the
external `hash_with_index` of the leaf data (`PMMRIndexHashable`). -/
structure OutputView where
  getHash : Nat → Option Nat
  getData : Nat → Option OutLeaf
  hashWithIndex : OutLeaf → Nat → Nat

/-- Feature-based MMR selection: Plain/Coinbase read the OutputI MMR,
SigLocked reads the OutputII MMR (the `match ofph.features` in the source). -/
def featureSelect (features : OutputFeatures) (viewI viewII : OutputView) : OutputView :=
  match features with
  | .plain | .coinbase => viewI
  | .sigLocked => viewII

/-- A transaction kernel: the coordinator only reads its `excess`. -/
structure TxK where
  excess : Nat
deriving DecidableEq, Repr

/-! ## `TxHashSet::find_kernel` (txhashset.rs lines 286-306)

```rust
let min_index = min_index.unwrap_or(1);
let max_index = max_index.unwrap_or(self.kernel_pmmr_h.last_pos);
let mut index = max_index + 1;
while index > min_index {
    index -= 1;
    if let Some(kernel) = pmmr.get_data(index) {
        if &kernel.excess == excess { return Some((kernel, index)); }
    }
}
None
```

The loop visits `max_index, max_index - 1, …, min_index`; we realise it by
recursion on the iteration count, the position visited at count `k + 1` being
`min_index + k`. -/

/-- The reverse scan of `find_kernel`: with `cnt` iterations remaining the
next position inspected is `min_index + cnt - 1`. -/
def findKernelGo (getData : Nat → Option TxK) (excess : Nat) (min_index : Nat) :
    Nat → Option (TxK × Nat)
  | 0 => none
  | cnt + 1 =>
    let index := min_index + cnt
    match getData index with
    | some kernel =>
      if kernel.excess = excess then some (kernel, index)
      else findKernelGo getData excess min_index cnt
    | none => findKernelGo getData excess min_index cnt

/-- `TxHashSet::find_kernel`.  `getData` is the kernel MMR read-only view at
`last_pos`; the iteration count `max_index + 1 - min_index` reproduces the
`while index > min_index` loop started from `index = max_index + 1`. -/
def find_kernel (getData : Nat → Option TxK) (last_pos : Nat) (excess : Nat)
    (min_index max_index : Option Nat) : Option (TxK × Nat) :=
  let min_index := min_index.getD 1
  let max_index := max_index.getD last_pos
  findKernelGo getData excess min_index (max_index + 1 - min_index)

/-- No kernel in the scanned window `[min_index + lo, min_index + cnt)` has
the wanted excess. -/
def noMatchIn (getData : Nat → Option TxK) (excess lo hi : Nat) : Prop :=
  ∀ q, lo ≤ q → q ≤ hi → ∀ k2, getData q = some k2 → k2.excess ≠ excess

theorem findKernelGo_eq_some (getData : Nat → Option TxK) (excess min_index : Nat) :
    ∀ cnt k p, findKernelGo getData excess min_index cnt = some (k, p) ↔
      min_index ≤ p ∧ p < min_index + cnt ∧ getData p = some k ∧ k.excess = excess ∧
        noMatchIn getData excess (p + 1) (min_index + cnt - 1) := by
  intro cnt
  induction cnt with
  | zero =>
    intro k p
    simp only [findKernelGo]
    constructor
    · intro h; simp at h
    · rintro ⟨h1, h2, -⟩; omega
  | succ n ih =>
    intro k p
    simp only [findKernelGo]
    rcases hd : getData (min_index + n) with _ | kernel
    · rw [ih]
      constructor
      · rintro ⟨h1, h2, h3, h4, h5⟩
        refine ⟨h1, by omega, h3, h4, ?_⟩
        intro q hq1 hq2 k2 hk2 hk2e
        rcases Nat.lt_or_ge q (min_index + n) with hlt | hge
        · exact h5 q hq1 (by omega) k2 hk2 hk2e
        · have hq : q = min_index + n := by omega
          rw [hq, hd] at hk2; simp at hk2
      · rintro ⟨h1, h2, h3, h4, h5⟩
        have hpn : p ≠ min_index + n := by
          intro he; rw [he, hd] at h3; simp at h3
        refine ⟨h1, by omega, h3, h4, ?_⟩
        intro q hq1 hq2 k2 hk2 hk2e
        exact h5 q hq1 (by omega) k2 hk2 hk2e
    · by_cases hex : kernel.excess = excess
      · simp only [if_pos hex]
        constructor
        · intro h
          obtain ⟨hk, hp⟩ : kernel = k ∧ min_index + n = p := by
            have := Option.some.inj h
            exact ⟨congrArg Prod.fst this, congrArg Prod.snd this⟩
          subst hk; subst hp
          refine ⟨by omega, by omega, hd, hex, ?_⟩
          intro q hq1 hq2 _ _ _
          omega
        · rintro ⟨h1, h2, h3, h4, h5⟩
          have hp : p = min_index + n := by
            by_contra hne
            have hplt : p < min_index + n := by omega
            exact h5 (min_index + n) (by omega) (by omega) kernel hd hex
          subst hp
          rw [hd] at h3
          have hk : kernel = k := Option.some.inj h3
          subst hk
          rfl
      · simp only [if_neg hex]
        rw [ih]
        constructor
        · rintro ⟨h1, h2, h3, h4, h5⟩
          refine ⟨h1, by omega, h3, h4, ?_⟩
          intro q hq1 hq2 k2 hk2 hk2e
          rcases Nat.lt_or_ge q (min_index + n) with hlt | hge
          · exact h5 q hq1 (by omega) k2 hk2 hk2e
          · have hq : q = min_index + n := by omega
            rw [hq, hd] at hk2
            have : k2 = kernel := (Option.some.inj hk2).symm
            rw [this] at hk2e
            exact hex hk2e
        · rintro ⟨h1, h2, h3, h4, h5⟩
          have hpn : p ≠ min_index + n := by
            intro he
            rw [he, hd] at h3
            have : kernel = k := Option.some.inj h3
            rw [← this] at h4
            exact hex h4
          refine ⟨h1, by omega, h3, h4, ?_⟩
          intro q hq1 hq2 k2 hk2 hk2e
          exact h5 q hq1 (by omega) k2 hk2 hk2e

theorem findKernelGo_eq_none (getData : Nat → Option TxK) (excess min_index : Nat) :
    ∀ cnt, findKernelGo getData excess min_index cnt = none ↔
      noMatchIn getData excess min_index (min_index + cnt - 1) ∨ cnt = 0 := by
  intro cnt
  induction cnt with
  | zero =>
    simp only [findKernelGo]
    exact ⟨fun _ => Or.inr (by trivial), fun _ => by trivial⟩
  | succ n ih =>
    simp only [findKernelGo]
    rcases hd : getData (min_index + n) with _ | kernel
    · rw [ih]
      constructor
      · rintro (h | h)
        · refine Or.inl ?_
          intro q hq1 hq2 k2 hk2 hk2e
          rcases Nat.lt_or_ge q (min_index + n) with hlt | hge
          · exact h q hq1 (by omega) k2 hk2 hk2e
          · have hq : q = min_index + n := by omega
            rw [hq, hd] at hk2; simp at hk2
        · refine Or.inl ?_
          subst h
          intro q hq1 hq2 k2 hk2 hk2e
          have hq : q = min_index := by omega
          rw [hq] at hk2
          have : min_index + 0 = min_index := by omega
          rw [← this, hd] at hk2; simp at hk2
      · rintro (h | h)
        · refine Or.inl ?_
          intro q hq1 hq2 k2 hk2 hk2e
          exact h q hq1 (by omega) k2 hk2 hk2e
        · simp at h
    · by_cases hex : kernel.excess = excess
      · simp only [if_pos hex]
        constructor
        · intro h; simp at h
        · rintro (h | h)
          · exact absurd hex (h (min_index + n) (by omega) (by omega) kernel hd)
          · simp at h
      · simp only [if_neg hex]
        rw [ih]
        constructor
        · rintro (h | h)
          · refine Or.inl ?_
            intro q hq1 hq2 k2 hk2 hk2e
            rcases Nat.lt_or_ge q (min_index + n) with hlt | hge
            · exact h q hq1 (by omega) k2 hk2 hk2e
            · have hq : q = min_index + n := by omega
              rw [hq, hd] at hk2
              have : k2 = kernel := (Option.some.inj hk2).symm
              rw [this] at hk2e
              exact hex hk2e
          · refine Or.inl ?_
            subst h
            intro q hq1 hq2 k2 hk2 hk2e
            have hq : q = min_index := by omega
            have h0 : min_index + 0 = min_index := by omega
            rw [hq, ← h0, hd] at hk2
            have : k2 = kernel := (Option.some.inj hk2).symm
            rw [this] at hk2e
            exact hex hk2e
        · rintro (h | h)
          · refine Or.inl ?_
            intro q hq1 hq2 k2 hk2 hk2e
            exact h q hq1 (by omega) k2 hk2 hk2e
          · simp at h

/-- C6: `find_kernel(excess, min_idx?, max_idx?)` scans the kernel MMR from
`max_idx` (default: the kernel handle's `last_pos`) down to `min_idx`
(default: 1) inclusive and returns the first `(kernel, pos)` whose excess
matches — i.e. the *highest* matching position in the inclusive range — and
`None` exactly when no position in the range holds a kernel with that
excess. -/
theorem find_kernel_characterization (getData : Nat → Option TxK) (last_pos excess : Nat)
    (min_idx max_idx : Option Nat) :
    (∀ k p, find_kernel getData last_pos excess min_idx max_idx = some (k, p) ↔
      min_idx.getD 1 ≤ p ∧ p ≤ max_idx.getD last_pos ∧
        getData p = some k ∧ k.excess = excess ∧
        noMatchIn getData excess (p + 1) (max_idx.getD last_pos))
    ∧ (find_kernel getData last_pos excess min_idx max_idx = none ↔
        noMatchIn getData excess (min_idx.getD 1) (max_idx.getD last_pos)) := by
  set minI := min_idx.getD 1 with hmin
  set maxI := max_idx.getD last_pos with hmax
  have hgo : find_kernel getData last_pos excess min_idx max_idx =
      findKernelGo getData excess minI (maxI + 1 - minI) := rfl
  constructor
  · intro k p
    rw [hgo, findKernelGo_eq_some]
    rcases Nat.lt_or_ge maxI minI with hlt | hge
    · -- empty range: both sides false
      constructor
      · rintro ⟨h1, h2, -⟩; omega
      · rintro ⟨h1, h2, -⟩; omega
    · have harith : minI + (maxI + 1 - minI) = maxI + 1 := by omega
      constructor
      · rintro ⟨h1, h2, h3, h4, h5⟩
        refine ⟨h1, by omega, h3, h4, ?_⟩
        intro q hq1 hq2 k2 hk2 hk2e
        exact h5 q hq1 (by omega) k2 hk2 hk2e
      · rintro ⟨h1, h2, h3, h4, h5⟩
        refine ⟨h1, by omega, h3, h4, ?_⟩
        intro q hq1 hq2 k2 hk2 hk2e
        exact h5 q hq1 (by omega) k2 hk2 hk2e
  · rw [hgo, findKernelGo_eq_none]
    rcases Nat.lt_or_ge maxI minI with hlt | hge
    · constructor
      · intro _
        intro q hq1 hq2 k2 hk2 hk2e
        omega
      · intro _
        exact Or.inr (by omega)
    · constructor
      · rintro (h | h)
        · intro q hq1 hq2 k2 hk2 hk2e
          exact h q hq1 (by omega) k2 hk2 hk2e
        · omega
      · intro h
        refine Or.inl ?_
        intro q hq1 hq2 k2 hk2 hk2e
        exact h q hq1 (by omega) k2 hk2 hk2e

/-! ## `TxHashSet::is_unspent` (txhashset.rs lines 159-206)

The commitment → position index (`ChainStore::get_output_pos_height`) is
modelled as `index : Nat → Option OutputFeaturePosHeight`, `none` standing for
the store's `NotFoundErr`.  The source selects the OutputI or OutputII
read-only view by `ofph.features`, reads the leaf data at `ofph.position`
(missing data → `OutputNotFound`), reads the backend hash (missing hash →
`OutputNotFound`), then requires
`hash == output.hash_with_index(position - 1) && commit == output.commit`
(mismatch → `TxHashSetErr("txhashset hash mismatch")`). -/

def is_unspent (index : Nat → Option OutputFeaturePosHeight)
    (viewI viewII : OutputView) (output_commit : Nat) :
    Except TxErr OutputMMRPosition :=
  match index output_commit with
  | some ofph =>
    let view := featureSelect ofph.features viewI viewII
    match view.getData ofph.position with
    | none => .error .outputNotFound
    | some output =>
      match view.getHash ofph.position with
      | none => .error .outputNotFound
      | some hash =>
        if hash = view.hashWithIndex output (ofph.position - 1) ∧
            output_commit = output.commit then
          .ok ⟨hash, ofph.position, ofph.height, output.features⟩
        else
          .error (.txHashSetErr "txhashset hash mismatch")
  | none => .error .outputNotFound

/-- C5: `is_unspent(c)` returns `Ok` with the leaf's stored hash, the indexed
position and height and the leaf's features exactly when `c` has an index
entry, the feature-selected output MMR holds both hash and data at the
indexed position, the stored hash equals `leaf.hash_with_index(pos - 1)` and
the leaf's commitment equals `c`; a missing index entry or a missing leaf
(hash or data) gives `OutputNotFound`, and a hash or commitment mismatch
gives `TxHashSetErr`. -/
theorem is_unspent_characterization (index : Nat → Option OutputFeaturePosHeight)
    (viewI viewII : OutputView) (c : Nat) :
    (∀ r, is_unspent index viewI viewII c = .ok r ↔
      ∃ ofph leaf, index c = some ofph ∧
        (featureSelect ofph.features viewI viewII).getData ofph.position = some leaf ∧
        (featureSelect ofph.features viewI viewII).getHash ofph.position =
          some ((featureSelect ofph.features viewI viewII).hashWithIndex leaf
            (ofph.position - 1)) ∧
        leaf.commit = c ∧
        r = ⟨(featureSelect ofph.features viewI viewII).hashWithIndex leaf
              (ofph.position - 1),
            ofph.position, ofph.height, leaf.features⟩)
    ∧ (is_unspent index viewI viewII c = .error .outputNotFound ↔
        index c = none ∨
        ∃ ofph, index c = some ofph ∧
          ((featureSelect ofph.features viewI viewII).getData ofph.position = none ∨
           (featureSelect ofph.features viewI viewII).getHash ofph.position = none))
    ∧ (is_unspent index viewI viewII c = .error (.txHashSetErr "txhashset hash mismatch") ↔
        ∃ ofph leaf hash, index c = some ofph ∧
          (featureSelect ofph.features viewI viewII).getData ofph.position = some leaf ∧
          (featureSelect ofph.features viewI viewII).getHash ofph.position = some hash ∧
          (hash ≠ (featureSelect ofph.features viewI viewII).hashWithIndex leaf
              (ofph.position - 1) ∨
            leaf.commit ≠ c)) := by
  rcases hidx : index c with _ | ofph
  · refine ⟨?_, ?_, ?_⟩
    · intro r
      simp [is_unspent, hidx]
    · simp [is_unspent, hidx]
    · simp [is_unspent, hidx]
  · rcases hdata : (featureSelect ofph.features viewI viewII).getData ofph.position
      with _ | leaf
    · refine ⟨?_, ?_, ?_⟩
      · intro r
        simp [is_unspent, hidx, hdata]
      · simp [is_unspent, hidx, hdata]
      · simp [is_unspent, hidx, hdata]
    · rcases hhash : (featureSelect ofph.features viewI viewII).getHash ofph.position
        with _ | hash
      · refine ⟨?_, ?_, ?_⟩
        · intro r
          simp [is_unspent, hidx, hdata, hhash]
        · simp [is_unspent, hidx, hdata, hhash]
        · simp [is_unspent, hidx, hdata, hhash]
      · by_cases hcond : hash =
            (featureSelect ofph.features viewI viewII).hashWithIndex leaf
              (ofph.position - 1) ∧ c = leaf.commit
        · obtain ⟨hc1, hc2⟩ := hcond
          subst hc1
          subst hc2
          refine ⟨?_, ?_, ?_⟩
          · intro r
            simp only [is_unspent, hidx, hdata, hhash, and_self, if_pos,
              Option.some.injEq, Except.ok.injEq]
            constructor
            · intro h
              exact ⟨ofph, leaf, rfl, hdata, hhash, rfl, h.symm⟩
            · rintro ⟨ofph2, leaf2, heq, hd2, hh2, hc2, hr⟩
              obtain rfl : ofph = ofph2 := heq
              rw [hdata, Option.some.injEq] at hd2
              subst hd2
              exact hr.symm
          · simp only [is_unspent, hidx, hdata, hhash, and_self, if_pos,
              Option.some.injEq, reduceCtorEq, false_iff, false_or, not_exists, not_and]
            rintro ofph2 rfl
            simp [hdata, hhash]
          · simp only [is_unspent, hidx, hdata, hhash, and_self, if_pos,
              Option.some.injEq, reduceCtorEq, false_iff, not_exists, not_and]
            rintro ofph2 leaf2 hash2 rfl hd2 hh2
            rw [hdata, Option.some.injEq] at hd2
            subst hd2
            rw [hhash, Option.some.injEq] at hh2
            subst hh2
            simp
        · refine ⟨?_, ?_, ?_⟩
          · intro r
            simp only [is_unspent, hidx, hdata, hhash, if_neg hcond,
              Option.some.injEq, reduceCtorEq, false_iff, not_exists, not_and]
            rintro ofph2 leaf2 rfl hd2 hh2 hc2
            rw [hdata, Option.some.injEq] at hd2
            subst hd2
            rw [hhash, Option.some.injEq] at hh2
            exact fun _ => hcond ⟨hh2, hc2.symm⟩
          · simp only [is_unspent, hidx, hdata, hhash, if_neg hcond,
              Option.some.injEq, Except.error.injEq, reduceCtorEq, false_iff, false_or,
              not_exists, not_and]
            rintro ofph2 rfl
            simp [hdata, hhash]
          · simp only [is_unspent, hidx, hdata, hhash, if_neg hcond,
              Option.some.injEq, Except.error.injEq, TxErr.txHashSetErr.injEq]
            constructor
            · intro _
              refine ⟨ofph, leaf, hash, rfl, hdata, hhash, ?_⟩
              by_cases h1 : hash =
                  (featureSelect ofph.features viewI viewII).hashWithIndex leaf
                    (ofph.position - 1)
              · exact Or.inr fun h2 => hcond ⟨h1, h2.symm⟩
              · exact Or.inl h1
            · intro _
              trivial

/-! ## `Extension::apply_input` (txhashset.rs lines 990-1048)

`batch.get_output_pos_height` is modelled as `index` (`none` = any `Err`,
taken by the source's `if let Ok(ofph)` to the `AlreadySpent` branch).  The
`is_ok` flag is computed from the feature-selected output PMMR exactly as in
the source (`get_hash`, then `get_data`, then
`hash == output.hash_with_index(pos - 1) && input.commit == output.id.commit`).
`prune` mutates the backend and reports `Result<bool, String>`; only its
reported outcome matters to this code path, so it is modelled as the
outcome function `pruneI` / `pruneII`. -/

/-- The `is_ok` computation of `apply_input`. -/
def inputLeafOk (view : OutputView) (position input_commit : Nat) : Bool :=
  match view.getHash position, view.getData position with
  | some hash, some output =>
    hash == view.hashWithIndex output (position - 1) && input_commit == output.commit
  | _, _ => false

/-- Feature-based prune selection of `apply_input` (Plain/Coinbase prune the
OutputI MMR, SigLocked prunes the OutputII MMR). -/
def featurePrune (features : OutputFeatures) (pruneI pruneII : Nat → Except String Bool) :
    Nat → Except String Bool :=
  match features with
  | .plain | .coinbase => pruneI
  | .sigLocked => pruneII

def apply_input (index : Nat → Option OutputFeaturePosHeight)
    (viewI viewII : OutputView) (pruneI pruneII : Nat → Except String Bool)
    (input_commit : Nat) : Except TxErr Unit :=
  match index input_commit with
  | some ofph =>
    let is_ok := inputLeafOk (featureSelect ofph.features viewI viewII)
      ofph.position input_commit
    if !is_ok then
      .error (.txHashSetErr "output pmmr hash not found or mismatch")
    else
      match featurePrune ofph.features pruneI pruneII ofph.position with
      | .ok true => .ok ()
      | .ok false => .error (.alreadySpent input_commit)
      | .error e => .error (.txHashSetErr e)
  | none => .error (.alreadySpent input_commit)

/-- The propositional form of `is_ok`: the feature-selected MMR holds leaf
data and hash at the position, the stored hash equals
`leaf.hash_with_index(pos - 1)` and the leaf's commitment is the input's. -/
def InputMatches (view : OutputView) (position input_commit : Nat) : Prop :=
  ∃ leaf, view.getData position = some leaf ∧
    view.getHash position = some (view.hashWithIndex leaf (position - 1)) ∧
    leaf.commit = input_commit

theorem inputLeafOk_iff (view : OutputView) (position input_commit : Nat) :
    inputLeafOk view position input_commit = true ↔
      InputMatches view position input_commit := by
  unfold inputLeafOk InputMatches
  rcases hh : view.getHash position with _ | hash <;>
    rcases hd : view.getData position with _ | leaf <;>
      simp [Bool.and_eq_true, beq_iff_eq]
  intro _
  exact eq_comm

/-- C4: `apply_input` returns `AlreadySpent(commit)` when the commitment has
no index entry; `TxHashSetErr` with the mismatch message when the index
entry's position does not carry a matching live leaf; otherwise the
feature-selected MMR is pruned at the indexed position, `Ok(true)` giving
success, `Ok(false)` giving `AlreadySpent(commit)` and `Err(e)` giving
`TxHashSetErr(e)`. -/
theorem apply_input_characterization (index : Nat → Option OutputFeaturePosHeight)
    (viewI viewII : OutputView) (pruneI pruneII : Nat → Except String Bool) (c : Nat) :
    (apply_input index viewI viewII pruneI pruneII c = .ok () ↔
      ∃ ofph, index c = some ofph ∧
        InputMatches (featureSelect ofph.features viewI viewII) ofph.position c ∧
        featurePrune ofph.features pruneI pruneII ofph.position = .ok true)
    ∧ (∀ c2, apply_input index viewI viewII pruneI pruneII c = .error (.alreadySpent c2) ↔
        c2 = c ∧
          (index c = none ∨
            ∃ ofph, index c = some ofph ∧
              InputMatches (featureSelect ofph.features viewI viewII) ofph.position c ∧
              featurePrune ofph.features pruneI pruneII ofph.position = .ok false))
    ∧ (∀ m, apply_input index viewI viewII pruneI pruneII c = .error (.txHashSetErr m) ↔
        (∃ ofph, index c = some ofph ∧
          ¬ InputMatches (featureSelect ofph.features viewI viewII) ofph.position c ∧
          m = "output pmmr hash not found or mismatch") ∨
        (∃ ofph, index c = some ofph ∧
          InputMatches (featureSelect ofph.features viewI viewII) ofph.position c ∧
          featurePrune ofph.features pruneI pruneII ofph.position = .error m)) := by
  rcases hidx : index c with _ | ofph
  · refine ⟨?_, ?_, ?_⟩
    · simp [apply_input, hidx]
    · intro c2
      simp only [apply_input, hidx, Except.error.injEq, TxErr.alreadySpent.injEq]
      constructor
      · intro h
        exact ⟨h.symm, Or.inl trivial⟩
      · rintro ⟨rfl, -⟩
        rfl
    · intro m
      simp [apply_input, hidx]
  · have hok := inputLeafOk_iff (featureSelect ofph.features viewI viewII) ofph.position c
    rcases hleaf : inputLeafOk (featureSelect ofph.features viewI viewII) ofph.position c
      with _ | _
    · have hnm : ¬ InputMatches (featureSelect ofph.features viewI viewII) ofph.position c := by
        rw [← hok, hleaf]
        simp
      refine ⟨?_, ?_, ?_⟩
      · simp only [apply_input, hidx, hleaf]
        constructor
        · intro h; simp at h
        · rintro ⟨ofph2, heq, hm, -⟩
          obtain rfl : ofph = ofph2 := Option.some.inj (hidx ▸ heq)
          exact absurd hm hnm
      · intro c2
        simp only [apply_input, hidx, hleaf]
        constructor
        · intro h; simp at h
        · rintro ⟨rfl, h | ⟨ofph2, heq, hm, -⟩⟩
          · simp at h
          · obtain rfl : ofph = ofph2 := Option.some.inj (hidx ▸ heq)
            exact absurd hm hnm
      · intro m
        simp only [apply_input, hidx, hleaf, Bool.not_false, if_pos, Except.error.injEq,
          TxErr.txHashSetErr.injEq]
        constructor
        · intro h
          exact Or.inl ⟨ofph, rfl, hnm, h.symm⟩
        · rintro (⟨ofph2, heq, -, hm⟩ | ⟨ofph2, heq, hm, -⟩)
          · exact hm.symm
          · obtain rfl : ofph = ofph2 := Option.some.inj (hidx ▸ heq)
            exact absurd hm hnm
    · have hm : InputMatches (featureSelect ofph.features viewI viewII) ofph.position c :=
        hok.mp hleaf
      rcases hpr : featurePrune ofph.features pruneI pruneII ofph.position
        with e | b
      · refine ⟨?_, ?_, ?_⟩
        · simp only [apply_input, hidx, hleaf, Bool.not_true, Bool.false_eq_true,
            if_false, hpr]
          constructor
          · intro h; simp at h
          · rintro ⟨ofph2, heq, -, hp⟩
            obtain rfl : ofph = ofph2 := Option.some.inj (hidx ▸ heq)
            rw [hpr] at hp; simp at hp
        · intro c2
          simp only [apply_input, hidx, hleaf, Bool.not_true, Bool.false_eq_true,
            if_false, hpr]
          constructor
          · intro h; simp at h
          · rintro ⟨rfl, h | ⟨ofph2, heq, -, hp⟩⟩
            · simp at h
            · obtain rfl : ofph = ofph2 := Option.some.inj (hidx ▸ heq)
              rw [hpr] at hp; simp at hp
        · intro m
          simp only [apply_input, hidx, hleaf, Bool.not_true, Bool.false_eq_true,
            if_false, hpr, Except.error.injEq, TxErr.txHashSetErr.injEq]
          constructor
          · intro h
            refine Or.inr ⟨ofph, rfl, hm, ?_⟩
            rw [hpr, h]
          · rintro (⟨ofph2, heq, hnm2, -⟩ | ⟨ofph2, heq, -, hp⟩)
            · obtain rfl : ofph = ofph2 := Option.some.inj (hidx ▸ heq)
              exact absurd hm hnm2
            · obtain rfl : ofph = ofph2 := Option.some.inj (hidx ▸ heq)
              rw [hpr] at hp
              exact Except.error.inj hp
      · rcases b with _ | _
        · refine ⟨?_, ?_, ?_⟩
          · simp only [apply_input, hidx, hleaf, Bool.not_true, Bool.false_eq_true,
              if_false, hpr]
            constructor
            · intro h; simp at h
            · rintro ⟨ofph2, heq, -, hp⟩
              obtain rfl : ofph = ofph2 := Option.some.inj (hidx ▸ heq)
              rw [hpr] at hp; simp at hp
          · intro c2
            simp only [apply_input, hidx, hleaf, Bool.not_true, Bool.false_eq_true,
              if_false, hpr, Except.error.injEq, TxErr.alreadySpent.injEq]
            constructor
            · intro h
              exact ⟨h.symm, Or.inr ⟨ofph, rfl, hm, hpr⟩⟩
            · rintro ⟨rfl, -⟩
              rfl
          · intro m
            simp only [apply_input, hidx, hleaf, Bool.not_true, Bool.false_eq_true,
              if_false, hpr]
            constructor
            · intro h; simp at h
            · rintro (⟨ofph2, heq, hnm2, -⟩ | ⟨ofph2, heq, -, hp⟩)
              · obtain rfl : ofph = ofph2 := Option.some.inj (hidx ▸ heq)
                exact absurd hm hnm2
              · obtain rfl : ofph = ofph2 := Option.some.inj (hidx ▸ heq)
                rw [hpr] at hp; simp at hp
        · refine ⟨?_, ?_, ?_⟩
          · simp only [apply_input, hidx, hleaf, Bool.not_true, Bool.false_eq_true,
              if_false, hpr]
            constructor
            · intro _
              exact ⟨ofph, rfl, hm, hpr⟩
            · intro _
              trivial
          · intro c2
            simp only [apply_input, hidx, hleaf, Bool.not_true, Bool.false_eq_true,
              if_false, hpr]
            constructor
            · intro h; simp at h
            · rintro ⟨rfl, h | ⟨ofph2, heq, -, hp⟩⟩
              · simp at h
              · obtain rfl : ofph = ofph2 := Option.some.inj (hidx ▸ heq)
                rw [hpr] at hp; simp at hp
          · intro m
            simp only [apply_input, hidx, hleaf, Bool.not_true, Bool.false_eq_true,
              if_false, hpr]
            constructor
            · intro h; simp at h
            · rintro (⟨ofph2, heq, hnm2, -⟩ | ⟨ofph2, heq, -, hp⟩)
              · obtain rfl : ofph = ofph2 := Option.some.inj (hidx ▸ heq)
                exact absurd hm hnm2
              · obtain rfl : ofph = ofph2 := Option.some.inj (hidx ▸ heq)
                rw [hpr] at hp; simp at hp

/-! ## `Extension::verify_kernel_signatures` (txhashset.rs lines 1360-1397)

```rust
const KERNEL_BATCH_SIZE: usize = 5_000;
let mut kern_count = 0;
let total_kernels = pmmr::n_leaves(self.kernel_pmmr.unpruned_size());
let mut tx_kernels: Vec<TxKernel> = ...;
for n in 1..self.kernel_pmmr.unpruned_size() + 1 {
    if pmmr::is_leaf(n) {
        let kernel = self.kernel_pmmr.get_data(n).ok_or(TxKernelNotFound)?;
        tx_kernels.push(kernel);
    }
    if tx_kernels.len() >= KERNEL_BATCH_SIZE || n >= self.kernel_pmmr.unpruned_size() {
        TxKernel::batch_sig_verify(&tx_kernels)?;
        kern_count += tx_kernels.len() as u64;
        tx_kernels.clear();
        status.on_validation(kern_count, total_kernels, 0, 0);
    }
}
```

`pmmr::is_leaf` and `pmmr::n_leaves` are external MMR arithmetic, passed as
`isLeaf` and `totalKernels`; `TxKernel::batch_sig_verify` is the external
signature checker, modelled by its outcome `sigOk`.  The recorded
`status.on_validation(kern_count, total_kernels, 0, 0)` calls are returned as
a list of argument tuples, in call order. -/

/-- One `on_validation` argument tuple. -/
abbrev ValEvent := Nat × Nat × Nat × Nat

/-- Body of the `for n in 1..size+1` loop of `verify_kernel_signatures`,
recursing over the remaining positions with the (buffer, kern_count) state. -/
def vksGo (isLeaf : Nat → Bool) (getData : Nat → Option TxK)
    (sigOk : List TxK → Bool) (size totalKernels : Nat) :
    List Nat → List TxK → Nat → Except TxErr (List ValEvent)
  | [], _, _ => .ok []
  | n :: rest, tx_kernels, kern_count =>
    let fetched : Except TxErr (List TxK) :=
      if isLeaf n then
        match getData n with
        | some kernel => .ok (tx_kernels ++ [kernel])
        | none => .error .txKernelNotFound
      else .ok tx_kernels
    match fetched with
    | .error e => .error e
    | .ok buf =>
      if 5000 ≤ buf.length ∨ size ≤ n then
        if sigOk buf then
          match vksGo isLeaf getData sigOk size totalKernels rest [] (kern_count + buf.length) with
          | .ok evs => .ok ((kern_count + buf.length, totalKernels, 0, 0) :: evs)
          | .error e => .error e
        else .error .sigVerify
      else vksGo isLeaf getData sigOk size totalKernels rest buf kern_count

def verify_kernel_signatures (isLeaf : Nat → Bool) (getData : Nat → Option TxK)
    (sigOk : List TxK → Bool) (size totalKernels : Nat) : Except TxErr (List ValEvent) :=
  vksGo isLeaf getData sigOk size totalKernels ((List.range size).map (· + 1)) [] 0

/-- State of the claimed iteration: the kernel buffer, the verified count and
the `on_validation` events emitted so far. -/
structure VksState where
  buffer : List TxK
  kern_count : Nat
  events : List ValEvent
deriving Repr

/-- One position of the iteration as the claim words it: at a leaf position a
missing kernel leaf is `TxKernelNotFound` and otherwise the kernel is
buffered; when the buffer holds 5000 kernels or the last position is reached,
the batch is signature-verified, the verified count grows by the buffer
length and `on_validation(kern_count, total_kernels, 0, 0)` is emitted. -/
def vksClaimStep (isLeaf : Nat → Bool) (getData : Nat → Option TxK)
    (sigOk : List TxK → Bool) (size totalKernels : Nat)
    (st : VksState) (n : Nat) : Except TxErr VksState :=
  let buffered : Except TxErr (List TxK) :=
    if isLeaf n then
      match getData n with
      | some kernel => .ok (st.buffer ++ [kernel])
      | none => .error .txKernelNotFound
    else .ok st.buffer
  match buffered with
  | .error e => .error e
  | .ok buf =>
    if 5000 ≤ buf.length ∨ size ≤ n then
      if sigOk buf then
        .ok ⟨[], st.kern_count + buf.length,
          st.events ++ [(st.kern_count + buf.length, totalKernels, 0, 0)]⟩
      else .error .sigVerify
    else .ok ⟨buf, st.kern_count, st.events⟩

def vksClaimGo (isLeaf : Nat → Bool) (getData : Nat → Option TxK)
    (sigOk : List TxK → Bool) (size totalKernels : Nat) :
    List Nat → VksState → Except TxErr (List ValEvent)
  | [], st => .ok st.events
  | n :: rest, st =>
    match vksClaimStep isLeaf getData sigOk size totalKernels st n with
    | .error e => .error e
    | .ok st2 => vksClaimGo isLeaf getData sigOk size totalKernels rest st2

/-- The claim's description of `verify_kernel_signatures`, as a stateful
left-to-right iteration over positions `1..=size`. -/
def verify_kernel_signatures_claimed (isLeaf : Nat → Bool) (getData : Nat → Option TxK)
    (sigOk : List TxK → Bool) (size totalKernels : Nat) : Except TxErr (List ValEvent) :=
  vksClaimGo isLeaf getData sigOk size totalKernels
    ((List.range size).map (· + 1)) ⟨[], 0, []⟩

theorem vksClaimGo_eq_vksGo (isLeaf : Nat → Bool) (getData : Nat → Option TxK)
    (sigOk : List TxK → Bool) (size totalKernels : Nat) :
    ∀ (ps : List Nat) (buf : List TxK) (kc : Nat) (evs : List ValEvent),
      vksClaimGo isLeaf getData sigOk size totalKernels ps ⟨buf, kc, evs⟩ =
        match vksGo isLeaf getData sigOk size totalKernels ps buf kc with
        | .ok l => .ok (evs ++ l)
        | .error e => .error e := by
  intro ps
  induction ps with
  | nil =>
    intro buf kc evs
    simp [vksClaimGo, vksGo]
  | cons n rest ih =>
    intro buf kc evs
    simp only [vksClaimGo, vksClaimStep, vksGo]
    by_cases hl : isLeaf n
    · simp only [hl, if_pos]
      rcases hd : getData n with _ | kernel
      · simp
      · simp only []
        by_cases hflush : 5000 ≤ (buf ++ [kernel]).length ∨ size ≤ n
        · simp only [if_pos hflush]
          by_cases hsig : sigOk (buf ++ [kernel])
          · simp only [if_pos hsig]
            rw [ih]
            rcases vksGo isLeaf getData sigOk size totalKernels rest []
                (kc + (buf ++ [kernel]).length) with e | l
            · simp
            · simp
          · simp [if_neg hsig]
        · simp only [if_neg hflush]
          exact ih (buf ++ [kernel]) kc evs
    · simp only [hl, if_neg, Bool.false_eq_true, if_false]
      by_cases hflush : 5000 ≤ buf.length ∨ size ≤ n
      · simp only [if_pos hflush]
        by_cases hsig : sigOk buf
        · simp only [if_pos hsig]
          rw [ih]
          rcases vksGo isLeaf getData sigOk size totalKernels rest [] (kc + buf.length)
              with e | l
          · simp
          · simp
        · simp [if_neg hsig]
      · simp only [if_neg hflush]
        exact ih buf kc evs

/-- C7: `verify_kernel_signatures` behaves exactly as claimed: it iterates
positions 1 to the unpruned size inclusive; at each leaf position a missing
kernel leaf yields `TxKernelNotFound`, otherwise the kernel is buffered; and
whenever the buffer reaches 5000 kernels or the last position is reached, the
buffer is batch-signature-verified, the verified count increases by the
buffer length, and `on_validation(kern_count, total_kernels, 0, 0)` is
emitted. -/
theorem verify_kernel_signatures_refines_claim (isLeaf : Nat → Bool)
    (getData : Nat → Option TxK) (sigOk : List TxK → Bool) (size totalKernels : Nat) :
    verify_kernel_signatures isLeaf getData sigOk size totalKernels =
      verify_kernel_signatures_claimed isLeaf getData sigOk size totalKernels := by
  unfold verify_kernel_signatures verify_kernel_signatures_claimed
  rw [vksClaimGo_eq_vksGo]
  rcases vksGo isLeaf getData sigOk size totalKernels
      ((List.range size).map (· + 1)) [] 0 with e | l
  · simp
  · simp

/-! ## Kernel MMR non-pruning (C8)

Three source facts combine here:
* `TxHashSet::open` (lines 113-147) opens the OutputI/OutputII backends with
  `prunable = true` and the kernel backend with `prunable = false`;
* the mutating `Extension` operations — `apply_output` (push to OutputI/II),
  `apply_input` (prune OutputI/II at the indexed position), `apply_kernel`
  (push to the kernel MMR) and `rewind_to_pos` (lines 1170-1187: rewind
  OutputI and OutputII with `rewind_rm_pos`, rewind the kernel MMR with
  `&Bitmap::create()`) — never call `prune` on the kernel MMR and always hand
  it the empty re-add bitmap;
* `kernels_committed` (lines 907-917) enumerates the kernel MMR leaves.

The backend calls each operation performs are recorded as a trace. -/

/-- The three body MMRs. -/
inductive MmrId where
  | outputI
  | outputII
  | kernel
deriving DecidableEq, Repr

/-- A mutating backend call made by an `Extension` operation.  The re-add
bitmap of `rewind` is a list of positions; `Bitmap::create()` is `[]`. -/
inductive BCall where
  | push (mmr : MmrId)
  | prune (mmr : MmrId) (position : Nat)
  | rewind (mmr : MmrId) (position : Nat) (rewind_rm_pos : List Nat)
deriving DecidableEq, Repr

/-- Backend calls of `Extension::apply_output`: one push to the
feature-selected output MMR (lines 1072-1082). -/
def apply_output_calls (features : OutputFeatures) : List BCall :=
  match features with
  | .plain | .coinbase => [.push .outputI]
  | .sigLocked => [.push .outputII]

/-- Backend calls of `Extension::apply_input` on its prune path: one prune of
the feature-selected output MMR at the indexed position (lines 1032-1037). -/
def apply_input_calls (features : OutputFeatures) (position : Nat) : List BCall :=
  match features with
  | .plain | .coinbase => [.prune .outputI position]
  | .sigLocked => [.prune .outputII position]

/-- Backend calls of `Extension::apply_kernel`: one push to the kernel MMR
(lines 1088-1094). -/
def apply_kernel_calls : List BCall :=
  [.push .kernel]

/-- Backend calls of `Extension::rewind_to_pos` (lines 1170-1187). -/
def rewind_to_pos_calls (output_i_pos output_ii_pos kernel_pos : Nat)
    (rewind_rm_pos : List Nat) : List BCall :=
  [.rewind .outputI output_i_pos rewind_rm_pos,
   .rewind .outputII output_ii_pos rewind_rm_pos,
   .rewind .kernel kernel_pos []]

/-- The MMR-mutating operations of `Extension`. -/
inductive ExtOp where
  | applyOutput (features : OutputFeatures)
  | applyInput (features : OutputFeatures) (position : Nat)
  | applyKernel
  | rewindToPos (output_i_pos output_ii_pos kernel_pos : Nat) (rewind_rm_pos : List Nat)
deriving DecidableEq, Repr

def extOpCalls : ExtOp → List BCall
  | .applyOutput features => apply_output_calls features
  | .applyInput features position => apply_input_calls features position
  | .applyKernel => apply_kernel_calls
  | .rewindToPos pI pII pK rm => rewind_to_pos_calls pI pII pK rm

/-- The backend-call trace of a sequence of `Extension` operations. -/
def extTrace (ops : List ExtOp) : List BCall :=
  (ops.map extOpCalls).flatten

/-- A backend call leaves the kernel MMR prune state untouched: it is not a
kernel prune, and if it rewinds the kernel MMR it re-adds nothing. -/
def kernelCallOk : BCall → Bool
  | .prune .kernel _ => false
  | .rewind .kernel _ rm => rm.isEmpty
  | _ => true

/-- The `prunable` flag each backend is opened with in `TxHashSet::open`
(lines 121-144; the kernel backend is opened `false, // not prunable`). -/
def open_prunable : MmrId → Bool
  | .outputI => true
  | .outputII => true
  | .kernel => false

/-- `Extension::kernels_committed` (lines 907-917): walk positions
`1..=unpruned_size`, pushing the excess of every kernel leaf found. -/
def kernels_committed (isLeaf : Nat → Bool) (getData : Nat → Option TxK)
    (size : Nat) : List Nat :=
  ((List.range size).map (· + 1)).foldl
    (fun commitments n =>
      if isLeaf n then
        match getData n with
        | some kernel => commitments ++ [kernel.excess]
        | none => commitments
      else commitments) []

/-- The leaves of the kernel MMR up to `size`, in position order. -/
def kernelLeaves (isLeaf : Nat → Bool) (getData : Nat → Option TxK)
    (size : Nat) : List TxK :=
  ((List.range size).map (· + 1)).filterMap
    (fun n => if isLeaf n then getData n else none)

theorem kernels_committed_foldl (isLeaf : Nat → Bool) (getData : Nat → Option TxK) :
    ∀ (ps : List Nat) (acc : List Nat),
      ps.foldl
        (fun commitments n =>
          if isLeaf n then
            match getData n with
            | some kernel => commitments ++ [kernel.excess]
            | none => commitments
          else commitments) acc =
      acc ++ (ps.filterMap (fun n => if isLeaf n then getData n else none)).map
        (fun k => k.excess) := by
  intro ps
  induction ps with
  | nil => intro acc; simp
  | cons n rest ih =>
    intro acc
    simp only [List.foldl_cons, List.filterMap_cons]
    by_cases hl : isLeaf n
    · simp only [hl, if_pos]
      rcases hd : getData n with _ | kernel
      · simpa using ih acc
      · simp only [List.map_cons]
        rw [ih (acc ++ [kernel.excess])]
        simp
    · simp only [hl, Bool.false_eq_true, if_false]
      exact ih acc

theorem extOpCalls_kernelOk (op : ExtOp) : (extOpCalls op).all kernelCallOk = true := by
  rcases op with features | ⟨features, position⟩ | _ | ⟨pI, pII, pK, rm⟩
  · rcases features <;> rfl
  · rcases features <;> rfl
  · rfl
  · rfl

/-- C8: the kernel MMR is never pruned — the kernel backend is opened
non-prunable, no `Extension` operation ever issues a kernel prune, every
kernel rewind carries the empty re-add bitmap — and `kernels_committed`
enumerates exactly the excess commitments of the kernel MMR leaves up to the
unpruned size, in position order. -/
theorem kernel_mmr_never_pruned :
    open_prunable .kernel = false
    ∧ (∀ ops : List ExtOp, (extTrace ops).all kernelCallOk = true)
    ∧ (∀ (isLeaf : Nat → Bool) (getData : Nat → Option TxK) (size : Nat),
        kernels_committed isLeaf getData size =
          (kernelLeaves isLeaf getData size).map (fun k => k.excess)) := by
  refine ⟨rfl, ?_, ?_⟩
  · intro ops
    induction ops with
    | nil => rfl
    | cons op rest ih =>
      simp only [extTrace, List.map_cons, List.flatten_cons, List.all_append]
      rw [extOpCalls_kernelOk op]
      simpa [extTrace] using ih
  · intro isLeaf getData size
    unfold kernels_committed kernelLeaves
    simpa using kernels_committed_foldl isLeaf getData ((List.range size).map (· + 1)) []

/-! ## The `extending` scope controller (txhashset.rs lines 609-677)

After the closure runs, the source captures `rollback` and
`sizes = extension.sizes()` (the post-extension unpruned sizes of the three
body MMRs), then:

```rust
header_pmmr.backend.discard();
match res {
    Err(e) => { discard outputI, outputII, kernel; Err(e) }
    Ok(r) => {
        if rollback { discard outputI, outputII, kernel; }
        else {
            child_batch.commit()?;
            trees.output_i_pmmr_h.backend.sync()?;
            trees.output_ii_pmmr_h.backend.sync()?;
            trees.kernel_pmmr_h.backend.sync()?;
            trees.output_i_pmmr_h.last_pos = sizes.0;
            trees.output_ii_pmmr_h.last_pos = sizes.1;
            trees.kernel_pmmr_h.last_pos = sizes.2;
        }
        Ok(r)
    }
}
```

The closure outcome (`innerRes`, `rollback`, `sizes`) and the fallible
commit/sync outcomes are parameters; the successfully performed discard /
commit / sync operations are recorded as an event trace, and the three
`last_pos` cursors are threaded explicitly. -/

/-- The `last_pos` cursors of the three body MMR handles. -/
structure Handles where
  output_i_last_pos : Nat
  output_ii_last_pos : Nat
  kernel_last_pos : Nat
deriving DecidableEq, Repr

/-- A performed backend/batch operation of the `extending` exit protocol. -/
inductive ScopeEv where
  | discardHeader
  | discardOutputI
  | discardOutputII
  | discardKernel
  | commitChildBatch
  | syncOutputI
  | syncOutputII
  | syncKernel
deriving DecidableEq, Repr

/-- The exit protocol of `extending`, returning the propagated result, the
trace of performed operations and the final handle cursors. -/
def extending {Er T : Type} (innerRes : Except Er T) (rollback : Bool)
    (sizes : Nat × Nat × Nat) (commitRes syncIRes syncIIRes syncKRes : Except Er Unit)
    (h : Handles) : Except Er T × List ScopeEv × Handles :=
  match innerRes with
  | .error e =>
    (.error e,
     [.discardHeader, .discardOutputI, .discardOutputII, .discardKernel], h)
  | .ok r =>
    if rollback then
      (.ok r,
       [.discardHeader, .discardOutputI, .discardOutputII, .discardKernel], h)
    else
      match commitRes with
      | .error e => (.error e, [.discardHeader], h)
      | .ok _ =>
        match syncIRes with
        | .error e => (.error e, [.discardHeader, .commitChildBatch], h)
        | .ok _ =>
          match syncIIRes with
          | .error e =>
            (.error e, [.discardHeader, .commitChildBatch, .syncOutputI], h)
          | .ok _ =>
            match syncKRes with
            | .error e =>
              (.error e,
               [.discardHeader, .commitChildBatch, .syncOutputI, .syncOutputII], h)
            | .ok _ =>
              (.ok r,
               [.discardHeader, .commitChildBatch, .syncOutputI, .syncOutputII,
                .syncKernel],
               ⟨sizes.1, sizes.2.1, sizes.2.2⟩)

/-- C1: for every `extending` call — the header MMR backend is discarded
first regardless of the outcome; if the closure returns `Err` or the
rollback flag is set, all three body backends are discarded, the child batch
is never committed and the handle cursors are unchanged; otherwise any
performed operations form a prefix of "commit the child batch, then sync
OutputI, OutputII, Kernel in that order" (so the child batch is committed
before any sync), and when everything succeeds the cursors are set to the
post-extension `sizes()` triple. -/
theorem extending_protocol {Er T : Type} (innerRes : Except Er T) (rollback : Bool)
    (sizes : Nat × Nat × Nat) (commitRes syncIRes syncIIRes syncKRes : Except Er Unit)
    (h : Handles) :
    ((extending innerRes rollback sizes commitRes syncIRes syncIIRes syncKRes h).2.1.head?
        = some .discardHeader)
    ∧ (∀ e, innerRes = .error e →
        extending innerRes rollback sizes commitRes syncIRes syncIIRes syncKRes h =
          (.error e,
           [.discardHeader, .discardOutputI, .discardOutputII, .discardKernel], h))
    ∧ (∀ r, innerRes = .ok r → rollback = true →
        extending innerRes rollback sizes commitRes syncIRes syncIIRes syncKRes h =
          (.ok r,
           [.discardHeader, .discardOutputI, .discardOutputII, .discardKernel], h))
    ∧ (∀ r, innerRes = .ok r → rollback = false →
        (let evs :=
          (extending innerRes rollback sizes commitRes syncIRes syncIIRes syncKRes h).2.1
         evs = [.discardHeader] ∨
         evs = [.discardHeader, .commitChildBatch] ∨
         evs = [.discardHeader, .commitChildBatch, .syncOutputI] ∨
         evs = [.discardHeader, .commitChildBatch, .syncOutputI, .syncOutputII] ∨
         evs = [.discardHeader, .commitChildBatch, .syncOutputI, .syncOutputII,
                .syncKernel])
        ∧ (commitRes = .ok () → syncIRes = .ok () → syncIIRes = .ok () →
            syncKRes = .ok () →
            extending innerRes rollback sizes commitRes syncIRes syncIIRes syncKRes h =
              (.ok r,
               [.discardHeader, .commitChildBatch, .syncOutputI, .syncOutputII,
                .syncKernel],
               ⟨sizes.1, sizes.2.1, sizes.2.2⟩))
        ∧ ((extending innerRes rollback sizes commitRes syncIRes syncIIRes syncKRes
              h).2.2 = h ∨
           (extending innerRes rollback sizes commitRes syncIRes syncIIRes syncKRes
              h).2.2 = ⟨sizes.1, sizes.2.1, sizes.2.2⟩)) := by
  rcases innerRes with e | r
  · refine ⟨rfl, ?_, ?_, ?_⟩
    · intro e2 he
      rw [Except.error.inj he]
      exact rfl
    · intro r hr
      simp at hr
    · intro r hr
      simp at hr
  · rcases hrb : rollback with _ | _
    · rcases commitRes with ce | cu
      · refine ⟨rfl, ?_, ?_, ?_⟩
        · intro e2 he; simp at he
        · intro r2 hr2 htrue; simp at htrue
        · intro r2 hr2 hfalse
          exact ⟨Or.inl rfl, fun hc => by simp at hc, Or.inl rfl⟩
      · rcases syncIRes with se | su
        · refine ⟨rfl, ?_, ?_, ?_⟩
          · intro e2 he; simp at he
          · intro r2 hr2 htrue; simp at htrue
          · intro r2 hr2 hfalse
            exact ⟨Or.inr (Or.inl rfl), fun _ hs => by simp at hs, Or.inl rfl⟩
        · rcases syncIIRes with se | su2
          · refine ⟨rfl, ?_, ?_, ?_⟩
            · intro e2 he; simp at he
            · intro r2 hr2 htrue; simp at htrue
            · intro r2 hr2 hfalse
              exact ⟨Or.inr (Or.inr (Or.inl rfl)),
                fun _ _ hs => by simp at hs, Or.inl rfl⟩
          · rcases syncKRes with se | su3
            · refine ⟨rfl, ?_, ?_, ?_⟩
              · intro e2 he; simp at he
              · intro r2 hr2 htrue; simp at htrue
              · intro r2 hr2 hfalse
                exact ⟨Or.inr (Or.inr (Or.inr (Or.inl rfl))),
                  fun _ _ _ hs => by simp at hs, Or.inl rfl⟩
            · refine ⟨rfl, ?_, ?_, ?_⟩
              · intro e2 he; simp at he
              · intro r2 hr2 htrue; simp at htrue
              · intro r2 hr2 hfalse
                refine ⟨Or.inr (Or.inr (Or.inr (Or.inr rfl))), ?_, Or.inr rfl⟩
                intro _ _ _ _
                rw [Except.ok.inj hr2]
                exact rfl
    · refine ⟨rfl, ?_, ?_, ?_⟩
      · intro e2 he; simp at he
      · intro r2 hr2 _
        rw [Except.ok.inj hr2]
        exact rfl
      · intro r2 hr2 hfalse; simp at hfalse

/-- Witness for C1: the three exit paths of `extending` at concrete inputs
(`Er = T = Nat`): a failing closure, a rollback-flagged closure, and a fully
successful commit. -/
theorem extending_protocol_witness :
    (extending (Except.error 7) false (3, 4, 5) (.ok ()) (.ok ()) (.ok ()) (.ok ())
        (⟨0, 0, 0⟩ : Handles) =
      ((Except.error 7 : Except Nat Nat),
       [.discardHeader, .discardOutputI, .discardOutputII, .discardKernel],
       (⟨0, 0, 0⟩ : Handles)))
    ∧ (extending (Except.ok 1) true (3, 4, 5) (.ok ()) (.ok ()) (.ok ()) (.ok ())
        (⟨0, 0, 0⟩ : Handles) =
      ((Except.ok 1 : Except Nat Nat),
       [.discardHeader, .discardOutputI, .discardOutputII, .discardKernel],
       (⟨0, 0, 0⟩ : Handles)))
    ∧ (extending (Except.ok 1) false (3, 4, 5) (.ok ()) (.ok ()) (.ok ()) (.ok ())
        (⟨0, 0, 0⟩ : Handles) =
      ((Except.ok 1 : Except Nat Nat),
       [.discardHeader, .commitChildBatch, .syncOutputI, .syncOutputII, .syncKernel],
       (⟨3, 4, 5⟩ : Handles))) := by
  refine ⟨?_, ?_, ?_⟩
  · exact (extending_protocol (Except.error 7) false (3, 4, 5) (.ok ()) (.ok ())
      (.ok ()) (.ok ()) ⟨0, 0, 0⟩).2.1 7 rfl
  · exact (extending_protocol (Except.ok 1) true (3, 4, 5) (.ok ()) (.ok ())
      (.ok ()) (.ok ()) ⟨0, 0, 0⟩).2.2.1 1 rfl rfl
  · exact ((extending_protocol (Except.ok 1) false (3, 4, 5) (.ok ()) (.ok ())
      (.ok ()) (.ok ()) ⟨0, 0, 0⟩).2.2.2 1 rfl rfl).2.1 rfl rfl rfl rfl

/-! ## `input_pos_to_rewind` (txhashset.rs lines 1548-1589)

```rust
if head_header.height <= block_header.height { return Ok(Bitmap::create()); }
let bitmap_fast_or = |b_res, block_input_bitmaps: &mut Vec<Bitmap>| -> Option<Bitmap> {
    if let Some(b) = b_res {
        block_input_bitmaps.push(b);
        if block_input_bitmaps.len() < 256 { return None; }
    }
    let bitmap = Bitmap::fast_or(...);
    block_input_bitmaps.clear();
    block_input_bitmaps.push(bitmap.clone());
    Some(bitmap)
};
let mut block_input_bitmaps: Vec<Bitmap> = vec![];
let mut current = head_header.clone();
while current.hash() != block_header.hash() {
    if current.height < 1 { break; }
    if let Ok(b_res) = batch.get_block_input_bitmap(&current.hash()) {
        bitmap_fast_or(Some(b_res), &mut block_input_bitmaps);
    }
    current = batch.get_previous_header(&current)?;
}
bitmap_fast_or(None, &mut block_input_bitmaps).ok_or_else(|| ErrorKind::Bitmap.into())
```

Bitmaps are finite sets of `u64` positions, `Bitmap::create()` is `∅` and
`Bitmap::fast_or` is the union of a list of bitmaps.  The store is modelled
by `prevH` (`get_previous_header`; `none` = `Err`, propagated by `?` as a
store error) and `ibm` (`get_block_input_bitmap` keyed by header hash;
`none` = `Err`, silently skipped by the `if let Ok`).  The `while` loop walks
an unbounded header chain, so it is embedded with an explicit step budget
`fuel`; exhaustion is the distinguished outcome `IptrErr.fuel`, which the
Rust loop (which simply keeps walking) never exhibits — theorems about
terminating walks supply enough fuel for the budget never to bind. -/

/-- A block header as seen by `input_pos_to_rewind`. -/
structure BHdr where
  hash : Nat
  height : Nat
deriving DecidableEq, Repr

/-- A block-input bitmap. -/
abbrev Bm := Finset Nat

/-- `Bitmap::fast_or`. -/
def fastOr (bitmaps : List Bm) : Bm := bitmaps.foldl (· ∪ ·) ∅

/-- The `bitmap_fast_or` closure: push the new bitmap, below 256 staged
bitmaps return `None`, otherwise (and always on the final `None` call)
collapse the staged bitmaps to their union. -/
def bitmap_fast_or (b_res : Option Bm) (block_input_bitmaps : List Bm) :
    Option Bm × List Bm :=
  match b_res with
  | some b =>
    let staged := block_input_bitmaps ++ [b]
    if staged.length < 256 then (none, staged)
    else
      let bitmap := fastOr staged
      (some bitmap, [bitmap])
  | none =>
    let bitmap := fastOr block_input_bitmaps
    (some bitmap, [bitmap])

/-- Error outcomes of the modelled `input_pos_to_rewind`. -/
inductive IptrErr where
  | store
  | bitmap
  | fuel
deriving DecidableEq, Repr

/-- The final fold after the walk: `bitmap_fast_or(None, …).ok_or(Bitmap)`. -/
def iptrFinalize (block_input_bitmaps : List Bm) : Except IptrErr Bm :=
  match (bitmap_fast_or none block_input_bitmaps).1 with
  | some bitmap => .ok bitmap
  | none => .error .bitmap

/-- The `while current.hash() != block_header.hash()` walk. -/
def iptrLoop (prevH : BHdr → Option BHdr) (ibm : Nat → Option Bm) (targetHash : Nat) :
    Nat → BHdr → List Bm → Except IptrErr Bm
  | 0, current, staged =>
    if current.hash = targetHash then iptrFinalize staged
    else if current.height < 1 then iptrFinalize staged
    else .error .fuel
  | fuel + 1, current, staged =>
    if current.hash = targetHash then iptrFinalize staged
    else if current.height < 1 then iptrFinalize staged
    else
      let staged1 :=
        match ibm current.hash with
        | some b => (bitmap_fast_or (some b) staged).2
        | none => staged
      match prevH current with
      | none => .error .store
      | some previous => iptrLoop prevH ibm targetHash fuel previous staged1

def input_pos_to_rewind (prevH : BHdr → Option BHdr) (ibm : Nat → Option Bm)
    (block_header head_header : BHdr) (fuel : Nat) : Except IptrErr Bm :=
  if head_header.height ≤ block_header.height then .ok ∅
  else iptrLoop prevH ibm block_header.hash fuel head_header []

theorem fastOr_append_one (staged : List Bm) (b : Bm) :
    fastOr (staged ++ [b]) = fastOr staged ∪ b := by
  unfold fastOr
  rw [List.foldl_append]
  rfl

theorem fastOr_singleton (b : Bm) : fastOr [b] = b := by
  unfold fastOr
  simp

/-- Whatever the staging does, the union of the staged bitmaps after pushing
`b` is the previous union joined with `b`. -/
theorem bitmap_fast_or_union (staged : List Bm) (b : Bm) :
    fastOr ((bitmap_fast_or (some b) staged).2) = fastOr staged ∪ b := by
  unfold bitmap_fast_or
  by_cases hlen : (staged ++ [b]).length < 256
  · simp only [if_pos hlen]
    exact fastOr_append_one staged b
  · simp only [if_neg hlen]
    rw [fastOr_singleton, fastOr_append_one]

/-- The final `bitmap_fast_or(None, …)` call always yields `Some`. -/
theorem bitmap_fast_or_none_isSome (staged : List Bm) :
    (bitmap_fast_or none staged).1.isSome = true := rfl

theorem iptrFinalize_eq (staged : List Bm) :
    iptrFinalize staged = .ok (fastOr staged) := rfl

theorem iptrLoop_ne_bitmap (prevH : BHdr → Option BHdr) (ibm : Nat → Option Bm)
    (targetHash : Nat) :
    ∀ (fuel : Nat) (current : BHdr) (staged : List Bm),
      iptrLoop prevH ibm targetHash fuel current staged ≠ .error .bitmap := by
  intro fuel
  induction fuel with
  | zero =>
    intro current staged
    simp only [iptrLoop]
    split_ifs <;> simp [iptrFinalize_eq]
  | succ fuel ih =>
    intro current staged
    simp only [iptrLoop]
    split_ifs
    · simp [iptrFinalize_eq]
    · simp [iptrFinalize_eq]
    · rcases prevH current with _ | previous
      · simp
      · exact ih previous _

/-- C9: `input_pos_to_rewind` never surfaces the `Bitmap` error: the final
`bitmap_fast_or(None, …)` fold always produces `Some` — even when no block
bitmaps were collected — so the `ok_or(ErrorKind::Bitmap)` guard is
unreachable. -/
theorem input_pos_to_rewind_no_bitmap_error :
    (∀ staged : List Bm, (bitmap_fast_or none staged).1.isSome = true)
    ∧ (∀ (prevH : BHdr → Option BHdr) (ibm : Nat → Option Bm)
        (block_header head_header : BHdr) (fuel : Nat),
        input_pos_to_rewind prevH ibm block_header head_header fuel ≠
          .error .bitmap) := by
  refine ⟨fun staged => rfl, ?_⟩
  intro prevH ibm block_header head_header fuel
  unfold input_pos_to_rewind
  split_ifs
  · simp
  · exact iptrLoop_ne_bitmap prevH ibm block_header.hash fuel head_header []

/-- Walking a well-formed chain segment from `chain (t + d)` down to the
target `chain t` accumulates, on top of the staged union, exactly the
bitmaps of the blocks at heights `t + 1 … t + d` (missing bitmaps
contributing nothing). -/
theorem iptrLoop_chain (prevH : BHdr → Option BHdr) (ibm : Nat → Option Bm)
    (chain : Nat → BHdr) (t n : Nat)
    (hheight : ∀ k, k ≤ n → t ≤ k → (chain k).height = k)
    (hprev : ∀ k, k < n → t ≤ k → prevH (chain (k + 1)) = some (chain k))
    (hhash : ∀ k, k ≤ n → t < k → (chain k).hash ≠ (chain t).hash) :
    ∀ d, t + d ≤ n → ∀ fuel, d ≤ fuel → ∀ staged,
      iptrLoop prevH ibm (chain t).hash fuel (chain (t + d)) staged =
        .ok (fastOr staged ∪
          (Finset.Icc (t + 1) (t + d)).biUnion
            (fun k => (ibm (chain k).hash).getD ∅)) := by
  intro d
  induction d with
  | zero =>
    intro hdn fuel hfuel staged
    have hIcc : Finset.Icc (t + 1) (t + 0) = ∅ := by
      apply Finset.Icc_eq_empty
      omega
    cases fuel <;> simp [iptrLoop, iptrFinalize_eq, hIcc]
  | succ d ih =>
    intro hdn fuel hfuel staged
    rcases fuel with _ | fuel
    · omega
    have hhashm : ¬ (chain (t + (d + 1))).hash = (chain t).hash :=
      hhash _ hdn (by omega)
    have hheightm : (chain (t + (d + 1))).height = t + (d + 1) :=
      hheight _ hdn (by omega)
    have hnotlow : ¬ (chain (t + (d + 1))).height < 1 := by
      rw [hheightm]; omega
    have hprevm : prevH (chain (t + (d + 1))) = some (chain (t + d)) := by
      have := hprev (t + d) (by omega) (by omega)
      simpa using this
    have hrec := ih (by omega) fuel (by omega)
    have hS : (Finset.Icc (t + 1) (t + (d + 1))).biUnion
          (fun k => (ibm (chain k).hash).getD ∅) =
        ((ibm (chain (t + (d + 1))).hash).getD ∅) ∪
          (Finset.Icc (t + 1) (t + d)).biUnion
            (fun k => (ibm (chain k).hash).getD ∅) := by
      have hle : t + 1 ≤ t + d + 1 := by omega
      rw [show t + (d + 1) = (t + d) + 1 by omega,
        ← Nat.Icc_insert_succ_right hle, Finset.biUnion_insert]
    simp only [iptrLoop, if_neg hhashm, if_neg hnotlow, hprevm]
    rcases hibm : ibm (chain (t + (d + 1))).hash with _ | b
    · rw [hrec staged, hS, hibm]
      simp only [Option.getD_none, Finset.empty_union]
    · rw [hrec ((bitmap_fast_or (some b) staged).2), hS, hibm,
        bitmap_fast_or_union]
      simp only [Option.getD_some]
      rw [Finset.union_assoc]

/-- The OR of the block-input bitmaps of the chain blocks at heights
`lo … hi` inclusive (a missing bitmap contributes nothing). -/
def rewindedOr (ibm : Nat → Option Bm) (chain : Nat → BHdr) (lo hi : Nat) : Bm :=
  (Finset.Icc lo hi).biUnion (fun k => (ibm (chain k).hash).getD ∅)

/-- The OR of the block-input bitmaps of the blocks *strictly between*
heights `t` and `n` — heights `t + 1 … n - 1`, both endpoints excluded. -/
def strictlyBetweenOr (ibm : Nat → Option Bm) (chain : Nat → BHdr) (t n : Nat) : Bm :=
  (Finset.Ioo t n).biUnion (fun k => (ibm (chain k).hash).getD ∅)

/-- A concrete three-block chain: block at height `k` has hash `100 + k`. -/
def cexChain : Nat → BHdr := fun k => ⟨100 + k, k⟩

/-- `get_previous_header` for `cexChain`. -/
def cexPrev : BHdr → Option BHdr := fun current =>
  if current.height = 0 then none
  else some ⟨100 + (current.height - 1), current.height - 1⟩

/-- Block-input bitmaps for `cexChain`: the block at height 2 (hash 102)
spends position 5, every other block spends nothing. -/
def cexIbm : Nat → Option Bm := fun h => if h = 102 then some {5} else some ∅

/-- Counterexample to C2 as stated: rewinding from the head `C` at height 2
to the target `T` at height 1, the code folds in the input bitmap of `C`
itself (the walk starts at `current = head_header`), so the result `{5}` is
not the OR over the blocks strictly between `T` and `C`, which is empty. -/
theorem input_pos_to_rewind_includes_head :
    input_pos_to_rewind cexPrev cexIbm (cexChain 1) (cexChain 2) 10 =
      .ok ({5} : Bm)
    ∧ strictlyBetweenOr cexIbm cexChain 1 2 = (∅ : Bm)
    ∧ ({5} : Bm) ≠ (∅ : Bm) := by
  refine ⟨?_, ?_, ?_⟩
  · rfl
  · rfl
  · decide

/-- C2 (amended): `input_pos_to_rewind(T, C, batch)` is the empty bitmap when
`C.height ≤ T.height`, and otherwise — for a chain where `C` sits at height
`n` above `T` at height `t`, every walked block's bitmap lookup succeeds and
the walk terminates — it equals the OR of `get_block_input_bitmap(b)` for
every block `b` strictly *after* `T` up to *and including* `C` on the
current chain (heights `t + 1 … n`). -/
theorem input_pos_to_rewind_amended :
    (∀ (prevH : BHdr → Option BHdr) (ibm : Nat → Option Bm) (T C : BHdr) (fuel : Nat),
        C.height ≤ T.height →
        input_pos_to_rewind prevH ibm T C fuel = .ok (∅ : Bm))
    ∧ (∀ (prevH : BHdr → Option BHdr) (ibm : Nat → Option Bm) (chain : Nat → BHdr)
        (t n fuel : Nat),
        (∀ k, k ≤ n → t ≤ k → (chain k).height = k) →
        (∀ k, k < n → t ≤ k → prevH (chain (k + 1)) = some (chain k)) →
        (∀ k, k ≤ n → t < k → (chain k).hash ≠ (chain t).hash) →
        (∀ k, k ≤ n → t < k → (ibm (chain k).hash).isSome = true) →
        t < n → n - t ≤ fuel →
        input_pos_to_rewind prevH ibm (chain t) (chain n) fuel =
          .ok (rewindedOr ibm chain (t + 1) n)) := by
  constructor
  · intro prevH ibm T C fuel hle
    unfold input_pos_to_rewind
    rw [if_pos hle]
  · intro prevH ibm chain t n fuel hheight hprev hhash hsome hlt hfuel
    have htn : t + (n - t) = n := by omega
    have hh : ¬ (chain n).height ≤ (chain t).height := by
      rw [hheight n le_rfl (by omega), hheight t (by omega) le_rfl]
      omega
    unfold input_pos_to_rewind
    rw [if_neg hh]
    have hloop := iptrLoop_chain prevH ibm chain t n hheight hprev hhash (n - t)
      (by omega) fuel hfuel []
    rw [htn] at hloop
    rw [hloop]
    unfold rewindedOr
    congr 1
    show fastOr [] ∪ _ = _
    rw [show fastOr [] = (∅ : Bm) from rfl, Finset.empty_union]

/-- Witness for C2 (amended): the concrete chain, both for the
`C.height ≤ T.height` early return and for a two-block walk. -/
theorem input_pos_to_rewind_amended_witness :
    input_pos_to_rewind cexPrev cexIbm (cexChain 2) (cexChain 1) 10 = .ok (∅ : Bm)
    ∧ input_pos_to_rewind cexPrev cexIbm (cexChain 0) (cexChain 2) 5 =
        .ok (rewindedOr cexIbm cexChain 1 2) := by
  constructor
  · exact input_pos_to_rewind_amended.1 cexPrev cexIbm (cexChain 2) (cexChain 1) 10
      (by decide)
  · exact input_pos_to_rewind_amended.2 cexPrev cexIbm cexChain 0 2 5
      (by decide) (by decide) (by decide) (by decide) (by decide) (by decide)

/-- Block-input bitmaps with a store failure: the lookup for the block at
height 2 (hash 102) fails, the block at height 3 (hash 103) spends
position 9. -/
def cexIbmMissing : Nat → Option Bm := fun h =>
  if h = 102 then none else if h = 103 then some ({9} : Bm) else some ∅

/-- C10: blocks whose `get_block_input_bitmap` lookup fails are silently
skipped — the walk still succeeds and the result is the OR over exactly the
walked blocks whose lookup succeeded, the failing blocks contributing
nothing — while a `get_previous_header` failure aborts the walk with an
error. -/
theorem input_pos_to_rewind_skips_missing_bitmaps :
    (∀ (prevH : BHdr → Option BHdr) (ibm : Nat → Option Bm) (chain : Nat → BHdr)
        (t n fuel : Nat),
        (∀ k, k ≤ n → t ≤ k → (chain k).height = k) →
        (∀ k, k < n → t ≤ k → prevH (chain (k + 1)) = some (chain k)) →
        (∀ k, k ≤ n → t < k → (chain k).hash ≠ (chain t).hash) →
        t < n → n - t ≤ fuel →
        input_pos_to_rewind prevH ibm (chain t) (chain n) fuel =
          .ok (((Finset.Icc (t + 1) n).filter
              (fun k => (ibm (chain k).hash).isSome)).biUnion
            (fun k => (ibm (chain k).hash).getD ∅)))
    ∧ (∀ (prevH : BHdr → Option BHdr) (ibm : Nat → Option Bm) (T C : BHdr)
        (fuel : Nat),
        T.height < C.height → C.hash ≠ T.hash → 1 ≤ C.height →
        prevH C = none →
        input_pos_to_rewind prevH ibm T C (fuel + 1) = .error .store) := by
  constructor
  · intro prevH ibm chain t n fuel hheight hprev hhash hlt hfuel
    have hfilter :
        ((Finset.Icc (t + 1) n).filter
            (fun k => (ibm (chain k).hash).isSome)).biUnion
          (fun k => (ibm (chain k).hash).getD ∅) =
        (Finset.Icc (t + 1) n).biUnion (fun k => (ibm (chain k).hash).getD ∅) := by
      apply Finset.ext
      intro a
      simp only [Finset.mem_biUnion, Finset.mem_filter]
      constructor
      · rintro ⟨k, ⟨hk, -⟩, hx⟩
        exact ⟨k, hk, hx⟩
      · rintro ⟨k, hk, hx⟩
        refine ⟨k, ⟨hk, ?_⟩, hx⟩
        rcases hks : ibm (chain k).hash with _ | b
        · rw [hks] at hx
          simp at hx
        · rfl
    rw [hfilter]
    have htn : t + (n - t) = n := by omega
    have hh : ¬ (chain n).height ≤ (chain t).height := by
      rw [hheight n le_rfl (by omega), hheight t (by omega) le_rfl]
      omega
    unfold input_pos_to_rewind
    rw [if_neg hh]
    have hloop := iptrLoop_chain prevH ibm chain t n hheight hprev hhash (n - t)
      (by omega) fuel hfuel []
    rw [htn] at hloop
    rw [hloop]
    congr 1
    show fastOr [] ∪ _ = _
    rw [show fastOr [] = (∅ : Bm) from rfl, Finset.empty_union]
  · intro prevH ibm T C fuel hlt hne hge hprevC
    unfold input_pos_to_rewind
    rw [if_neg (by omega)]
    simp only [iptrLoop, if_neg hne, if_neg (show ¬ C.height < 1 by omega), hprevC]

/-- Witness for C10: a four-block chain whose height-2 block has a failing
bitmap lookup, and a head whose previous-header lookup fails. -/
theorem input_pos_to_rewind_skips_missing_bitmaps_witness :
    input_pos_to_rewind cexPrev cexIbmMissing (cexChain 0) (cexChain 3) 5 =
      .ok (((Finset.Icc 1 3).filter
          (fun k => (cexIbmMissing (cexChain k).hash).isSome)).biUnion
        (fun k => (cexIbmMissing (cexChain k).hash).getD ∅))
    ∧ input_pos_to_rewind (fun _ => none) cexIbm (cexChain 0) (cexChain 2) 10 =
        .error .store := by
  constructor
  · exact input_pos_to_rewind_skips_missing_bitmaps.1 cexPrev cexIbmMissing cexChain
      0 3 5 (by decide) (by decide) (by decide) (by decide) (by decide)
  · exact input_pos_to_rewind_skips_missing_bitmaps.2 (fun _ => none) cexIbm
      (cexChain 0) (cexChain 2) 9 (by decide) (by decide) (by decide) rfl

/-! ## `TxHashSet::rebuild_height_pos_index` (txhashset.rs lines 387-498)

After clearing the index, the source buffers the live OutputI leaves as
`outputs_pos: Vec<(OutputIdentifier, u64)>` in `leaf_pos_iter()` order, reads
`max_height = batch.head()?.height`, and runs

```rust
let mut i = 0;
for search_height in 0..max_height {
    let hash = header_pmmr.get_header_hash_by_height(search_height + 1)?;
    let h = batch.get_block_header(&hash)?;
    while i < total_outputs {
        let (id, position) = outputs_pos[i];
        if position > h.output_i_mmr_size { break; }
        let height = if position == 1 { 0 } else { h.height };
        batch.save_output_pos_height(&id.commit, ...{features, position, height})?;
        i += 1;
    }
}
```

and then repeats the same walk for OutputII against `output_ii_mmr_size`,
without the `position == 1` special case.  `get_header_hash_by_height`
composed with `get_block_header` is modelled as `headerAt`; the buffered
leaves are the input lists; the index writes are returned in order.  The
`gen` flag selects the OutputI variant (with the Genesis `position == 1`
exception). -/

/-- A buffered `(id, position)` pair of the leaf stream. -/
structure OutEntry where
  commit : Nat
  features : OutputFeatures
  pos : Nat
deriving DecidableEq, Repr

/-- The header fields `rebuild_height_pos_index` reads. -/
structure HdrSizes where
  height : Nat
  output_i_mmr_size : Nat
  output_ii_mmr_size : Nat
deriving DecidableEq, Repr

/-- One `save_output_pos_height(commit, {features, position, height})` write. -/
structure SaveRec where
  commit : Nat
  features : OutputFeatures
  position : Nat
  height : Nat
deriving DecidableEq, Repr

def mkSave (e : OutEntry) (height : Nat) : SaveRec :=
  ⟨e.commit, e.features, e.pos, height⟩

/-- The inner `while i < total_outputs` loop at one header: store buffered
leaves while `position ≤ sz`, break at the first larger position; returns
the writes and the remaining buffer. -/
def storeLoop (sz hgt : Nat) (gen : Bool) : List OutEntry → List SaveRec × List OutEntry
  | [] => ([], [])
  | e :: rest =>
    if e.pos ≤ sz then
      let pr := storeLoop sz hgt gen rest
      (mkSave e (if gen && e.pos == 1 then 0 else hgt) :: pr.1, pr.2)
    else ([], e :: rest)

/-- The `for search_height in 0..max_height` walk: fetch the header at
`search_height + 1` (a failed lookup propagates as an error), run the inner
store loop against the selected MMR size, continue with the remaining
buffer. -/
def rebuildGo (headerAt : Nat → Option HdrSizes) (szOf : HdrSizes → Nat) (gen : Bool) :
    List Nat → List OutEntry → Except Unit (List SaveRec)
  | [], _ => .ok []
  | sh :: hs, outs =>
    match headerAt (sh + 1) with
    | none => .error ()
    | some h =>
      let pr := storeLoop (szOf h) h.height gen outs
      match rebuildGo headerAt szOf gen hs pr.2 with
      | .ok s2 => .ok (pr.1 ++ s2)
      | .error e => .error e

/-- `rebuild_height_pos_index`: the OutputI walk (with the Genesis
exception) followed by the OutputII walk, returning all index writes in
order. -/
def rebuild_height_pos_index (headerAt : Nat → Option HdrSizes) (max_height : Nat)
    (outputs_pos_i outputs_pos_ii : List OutEntry) : Except Unit (List SaveRec) :=
  match rebuildGo headerAt (fun h => h.output_i_mmr_size) true
      (List.range max_height) outputs_pos_i with
  | .error e => .error e
  | .ok s1 =>
    match rebuildGo headerAt (fun h => h.output_ii_mmr_size) false
        (List.range max_height) outputs_pos_ii with
    | .error e => .error e
    | .ok s2 => .ok (s1 ++ s2)

/-- Does the chain header at height `j` hold at least `p` MMR positions? -/
def qualAt (headerAt : Nat → Option HdrSizes) (szOf : HdrSizes → Nat) (p j : Nat) : Bool :=
  match headerAt j with
  | some h => decide (p ≤ szOf h)
  | none => false

/-- `k` is the first walked height (in `1 … max_height`, increasing order)
whose header covers position `p`. -/
def firstQual (headerAt : Nat → Option HdrSizes) (szOf : HdrSizes → Nat)
    (max_height p k : Nat) : Prop :=
  1 ≤ k ∧ k ≤ max_height ∧ qualAt headerAt szOf p k = true ∧
    ∀ j, j < k → 1 ≤ j → qualAt headerAt szOf p j = false

/-- On a strictly position-sorted buffer the inner loop stores exactly the
leaves the header covers and leaves exactly the others, in order. -/
theorem storeLoop_sorted (sz hgt : Nat) (gen : Bool) :
    ∀ outs : List OutEntry, List.Pairwise (fun a b => a.pos < b.pos) outs →
      storeLoop sz hgt gen outs =
        ((outs.filter (fun e => decide (e.pos ≤ sz))).map
          (fun e => mkSave e (if gen && e.pos == 1 then 0 else hgt)),
         outs.filter (fun e => decide (sz < e.pos))) := by
  intro outs
  induction outs with
  | nil =>
    intro _
    simp [storeLoop]
  | cons e rest ih =>
    intro hsort
    rw [List.pairwise_cons] at hsort
    by_cases hle : e.pos ≤ sz
    · have hnl : ¬ sz < e.pos := by omega
      simp [storeLoop, ih hsort.2, List.filter_cons, hle, hnl]
    · have hgt2 : sz < e.pos := by omega
      have hrest_le : rest.filter (fun e2 => decide (e2.pos ≤ sz)) = [] := by
        rw [List.filter_eq_nil_iff]
        intro b hb
        have := hsort.1 b hb
        simp only [decide_eq_true_eq]
        omega
      have hrest_gt : rest.filter (fun e2 => decide (sz < e2.pos)) = rest := by
        rw [List.filter_eq_self]
        intro b hb
        have := hsort.1 b hb
        simp only [decide_eq_true_eq]
        omega
      simp [storeLoop, hle, hgt2, List.filter_cons, hrest_le, hrest_gt]

/-- The storing walk over heights `a + 1 … a + cnt`: a buffered leaf whose
first covering height in the window is `k` (with header `h`) is written with
the loop's height rule for `h`. -/
theorem rebuildGo_mem (headerAt : Nat → Option HdrSizes) (szOf : HdrSizes → Nat)
    (gen : Bool) :
    ∀ (cnt a : Nat) (outs : List OutEntry) (saves : List SaveRec),
      rebuildGo headerAt szOf gen (List.range' a cnt) outs = .ok saves →
      List.Pairwise (fun x y => x.pos < y.pos) outs →
      ∀ e ∈ outs, ∀ k h, a + 1 ≤ k → k ≤ a + cnt →
        headerAt k = some h → e.pos ≤ szOf h →
        (∀ j, a + 1 ≤ j → j < k → qualAt headerAt szOf e.pos j = false) →
        mkSave e (if gen && e.pos == 1 then 0 else h.height) ∈ saves := by
  intro cnt
  induction cnt with
  | zero =>
    intro a outs saves hgo hsort e he k h hk1 hk2 hh hsz hmin
    omega
  | succ n ih =>
    intro a outs saves hgo hsort e he k h hk1 hk2 hh hsz hmin
    rw [List.range'_succ] at hgo
    simp only [rebuildGo] at hgo
    split at hgo
    · simp at hgo
    · rename_i h1 hha
      split at hgo
      · rename_i s2 hgo2
        simp only [Except.ok.injEq] at hgo
        subst hgo
        rcases Nat.eq_or_lt_of_le hk1 with hk | hk
        · -- the current height a + 1 is the first covering height
          obtain rfl : h1 = h := by
            rw [← hk] at hh
            exact Option.some.inj (hha ▸ hh)
          apply List.mem_append_left
          rw [storeLoop_sorted _ _ _ outs hsort]
          simp only []
          apply List.mem_map_of_mem
          rw [List.mem_filter]
          exact ⟨he, by simpa using hsz⟩
        · -- the first covering height lies beyond a + 1
          have hq1 : qualAt headerAt szOf e.pos (a + 1) = false :=
            hmin (a + 1) le_rfl hk
          have hgt : szOf h1 < e.pos := by
            unfold qualAt at hq1
            rw [hha] at hq1
            simpa using hq1
          apply List.mem_append_right
          have hmem2 : e ∈ (storeLoop (szOf h1) h1.height gen outs).2 := by
            rw [storeLoop_sorted _ _ _ outs hsort]
            simp only [List.mem_filter]
            exact ⟨he, by simpa using hgt⟩
          have hsort2 : List.Pairwise (fun x y => x.pos < y.pos)
              (storeLoop (szOf h1) h1.height gen outs).2 := by
            rw [storeLoop_sorted _ _ _ outs hsort]
            exact hsort.sublist (List.filter_sublist _)
          refine ih (a + 1) _ s2 hgo2 hsort2 e hmem2 k h (by omega) (by omega) hh hsz ?_
          intro j hj1 hj2
          exact hmin j (by omega) hj2
      · simp at hgo

/-- C3: after `rebuild_height_pos_index` succeeds on strictly
position-sorted leaf buffers, every buffered OutputI leaf whose first
covering chain header (walking heights `1 … max_height` in increasing order
against `output_i_mmr_size`) is `h` gets an index entry at height
`h.height` — except the leaf at position 1, stored with height 0 — and every
buffered OutputII leaf gets the identical treatment against
`output_ii_mmr_size` with no exception for position 1. -/
theorem rebuild_height_pos_index_heights (headerAt : Nat → Option HdrSizes)
    (max_height : Nat) (outsI outsII : List OutEntry) (saves : List SaveRec)
    (hsI : List.Pairwise (fun x y => x.pos < y.pos) outsI)
    (hsII : List.Pairwise (fun x y => x.pos < y.pos) outsII)
    (hok : rebuild_height_pos_index headerAt max_height outsI outsII = .ok saves) :
    (∀ e ∈ outsI, ∀ k h,
        firstQual headerAt (fun h2 => h2.output_i_mmr_size) max_height e.pos k →
        headerAt k = some h →
        mkSave e (if e.pos = 1 then 0 else h.height) ∈ saves)
    ∧ (∀ e ∈ outsII, ∀ k h,
        firstQual headerAt (fun h2 => h2.output_ii_mmr_size) max_height e.pos k →
        headerAt k = some h →
        mkSave e h.height ∈ saves) := by
  unfold rebuild_height_pos_index at hok
  rcases hgoI : rebuildGo headerAt (fun h => h.output_i_mmr_size) true
      (List.range max_height) outsI with e1 | s1
  · rw [hgoI] at hok; simp at hok
  rcases hgoII : rebuildGo headerAt (fun h => h.output_ii_mmr_size) false
      (List.range max_height) outsII with e2 | s2
  · rw [hgoI, hgoII] at hok; simp at hok
  rw [hgoI, hgoII] at hok
  simp only [Except.ok.injEq] at hok
  subst hok
  constructor
  · intro e he k h hfq hh
    obtain ⟨hk1, hk2, hq, hmin⟩ := hfq
    have hsz : e.pos ≤ h.output_i_mmr_size := by
      unfold qualAt at hq
      rw [hh] at hq
      simpa using hq
    rw [List.range_eq_range'] at hgoI
    have hmem := rebuildGo_mem headerAt (fun h2 => h2.output_i_mmr_size) true
      max_height 0 outsI s1 hgoI hsI e he k h (by omega) (by omega) hh hsz
      (fun j hj1 hj2 => hmin j hj2 hj1)
    apply List.mem_append_left
    have hif : (if (true && e.pos == 1) = true then 0 else h.height) =
        (if e.pos = 1 then 0 else h.height) := by
      by_cases hp : e.pos = 1
      · simp [hp]
      · simp [hp]
    rw [← hif]
    exact hmem
  · intro e he k h hfq hh
    obtain ⟨hk1, hk2, hq, hmin⟩ := hfq
    have hsz : e.pos ≤ h.output_ii_mmr_size := by
      unfold qualAt at hq
      rw [hh] at hq
      simpa using hq
    rw [List.range_eq_range'] at hgoII
    have hmem := rebuildGo_mem headerAt (fun h2 => h2.output_ii_mmr_size) false
      max_height 0 outsII s2 hgoII hsII e he k h (by omega) (by omega) hh hsz
      (fun j hj1 hj2 => hmin j hj2 hj1)
    apply List.mem_append_right
    simpa using hmem

/-- The chain headers of the witness instance: height 1 covers one OutputI
position and no OutputII position, height 2 covers three OutputI and two
OutputII positions. -/
def headerAtW : Nat → Option HdrSizes := fun k =>
  if k = 1 then some ⟨1, 1, 0⟩ else if k = 2 then some ⟨2, 3, 2⟩ else none

/-- Witness for C3: on a concrete two-header chain, the OutputI leaf at
position 1 is stored with height 0, the OutputI leaf at position 2 with the
height of its first covering header (2), and the OutputII leaf at position 1
with height 2 (no Genesis exception). -/
theorem rebuild_height_pos_index_heights_witness :
    mkSave ⟨10, .plain, 1⟩ 0 ∈
        ([⟨10, .plain, 1, 0⟩, ⟨11, .coinbase, 2, 2⟩,
          ⟨12, .sigLocked, 1, 2⟩, ⟨13, .sigLocked, 2, 2⟩] : List SaveRec)
    ∧ mkSave ⟨11, .coinbase, 2⟩ 2 ∈
        ([⟨10, .plain, 1, 0⟩, ⟨11, .coinbase, 2, 2⟩,
          ⟨12, .sigLocked, 1, 2⟩, ⟨13, .sigLocked, 2, 2⟩] : List SaveRec)
    ∧ mkSave ⟨12, .sigLocked, 1⟩ 2 ∈
        ([⟨10, .plain, 1, 0⟩, ⟨11, .coinbase, 2, 2⟩,
          ⟨12, .sigLocked, 1, 2⟩, ⟨13, .sigLocked, 2, 2⟩] : List SaveRec) := by
  have hmain := rebuild_height_pos_index_heights headerAtW 2
    [⟨10, .plain, 1⟩, ⟨11, .coinbase, 2⟩]
    [⟨12, .sigLocked, 1⟩, ⟨13, .sigLocked, 2⟩]
    [⟨10, .plain, 1, 0⟩, ⟨11, .coinbase, 2, 2⟩,
     ⟨12, .sigLocked, 1, 2⟩, ⟨13, .sigLocked, 2, 2⟩]
    (by decide) (by decide) rfl
  refine ⟨?_, ?_, ?_⟩
  · exact hmain.1 ⟨10, .plain, 1⟩ (by decide) 1 ⟨1, 1, 0⟩
      ⟨by decide, by decide, by decide, by decide⟩ (by decide)
  · exact hmain.1 ⟨11, .coinbase, 2⟩ (by decide) 2 ⟨2, 3, 2⟩
      ⟨by decide, by decide, by decide, by decide⟩ (by decide)
  · exact hmain.2 ⟨12, .sigLocked, 1⟩ (by decide) 2 ⟨2, 3, 2⟩
      ⟨by decide, by decide, by decide, by decide⟩ (by decide)

end GottsTxhashset
